import Mathlib

/-!
# context-tree: a shallow embedding of `src/index.ts`

This file embeds the data model and operations of the `context-tree`
library (a hierarchical dependency-injection mechanism) and proves the
specification claims about it.

Modelling conventions:
* A `Context` key is identified by reference identity in the source; we
  model identity structurally by tagging every key with a numeric `id`
  (fresh allocation supplies a fresh tag).  The key's `parent` chain is a
  structural field, so it is finite and acyclic by construction — exactly
  the source invariant (a partial key's parent is an already-existing key).
* Resolver thunks `() => T` are modelled by the value they produce
  (type parameter `α`); the memoized self-type resolver `() => instance`
  is modelled by the tag `Res.selfR i` carrying the node's identity.
* The node graph (`IContext` objects and their `context` edges) is a heap:
  a finite list of node ids `univ` together with per-id field data.
  Edges reference heap objects; the breadth-first search enqueues a parent
  only when it is a heap object not already in the visited set (for an
  actual JS heap every referenced object exists, so the `univ` membership
  test is vacuous there; it only serves termination of the model).
-/

/-- The `Context<T>` class of `src/index.ts`: a context key with a diagnostic
`name` and an optional `parent` key.  `root` is `new Context(name)` (parent
`null`), `derived` a key created with a parent (the partial-key operation).
Reference identity is modelled by the `id` tag. -/
inductive Context : Type where
  | root (id : Nat) (name : String)
  | derived (id : Nat) (name : String) (parent : Context)
deriving DecidableEq, Repr

/-- `Context.name` field accessor. -/
def Context.name : Context → String
  | .root _ n => n
  | .derived _ n _ => n

/-- `Context.parent` field accessor (`null` for a root key). -/
def Context.parent : Context → Option Context
  | .root _ _ => none
  | .derived _ _ p => some p

/-- `Context.id` tag accessor (models reference identity). -/
def Context.ident : Context → Nat
  | .root i _ => i
  | .derived i _ _ => i

/-- The parent chain of a key, from the key itself outward: the sequence of
keys the `while (context) { ... context = context.parent }` loops of the
source walk through. -/
def Context.chain : Context → List Context
  | .root i n => [.root i n]
  | .derived i n p => .derived i n p :: p.chain

/-- `Context.partial(name)` of `src/index.ts`: derive a partial key whose
`parent` is the receiver.  `newId` models the fresh reference identity of
the `new Context(...)` allocation. -/
def Context.derivePartial (k : Context) (newId : Nat) (name : String) : Context :=
  .derived newId name k

/-- The `ContextResolver<T>` class: a (key, producer) pair.  The producer
thunk is modelled by the value it produces. -/
structure ContextResolver (α : Type) where
  context : Context
  resolver : α

/-- `Context.resolvesTo(resolver)`. -/
def Context.resolvesTo (k : Context) (v : α) : ContextResolver α :=
  ⟨k, v⟩

/-- The `ContextResolvers` class: a `Map<Context, Resolver>` from key
identity to producer, modelled as an association list with unique keys
(JS `Map` semantics: `set` overwrites in place, `delete` removes). -/
structure ContextResolvers (α : Type) where
  resolvers : List (Context × α)

/-- `Map.get`: the entry for exactly this key, if any. -/
def mapGet (m : List (Context × α)) (k : Context) : Option α :=
  match m with
  | [] => none
  | (k', v) :: rest => if k' = k then some v else mapGet rest k

/-- `Map.set`: overwrite the entry for this key in place, or append a new
entry. -/
def mapSet (m : List (Context × α)) (k : Context) (v : α) : List (Context × α) :=
  if m.any (fun e => decide (e.1 = k)) then
    m.map (fun e => if e.1 = k then (k, v) else e)
  else
    m ++ [(k, v)]

/-- `Map.delete`: remove the entry for this key. -/
def mapDelete (m : List (Context × α)) (k : Context) : List (Context × α) :=
  m.filter (fun e => decide (¬ e.1 = k))

/-- `ContextResolvers.addResolver`. -/
def ContextResolvers.addResolver (rs : ContextResolvers α) (r : ContextResolver α) :
    ContextResolvers α :=
  ⟨mapSet rs.resolvers r.context r.resolver⟩

/-- `ContextResolvers.removeResolver`. -/
def ContextResolvers.removeResolver (rs : ContextResolvers α) (k : Context) :
    ContextResolvers α :=
  ⟨mapDelete rs.resolvers k⟩

/-- `ContextResolvers.findResolver`: walk the lookup key's own parent chain
(`while (context) { ...get...; context = context.parent }`) and return the
first table entry found. -/
def ContextResolvers.findResolver (rs : ContextResolvers α) : Context → Option α
  | .root i n =>
      mapGet rs.resolvers (.root i n)
  | .derived i n p =>
      match mapGet rs.resolvers (.derived i n p) with
      | some v => some v
      | none => rs.findResolver p

/-- `Context.resolvers(resolvers)`: build a table from a list of pairs by
repeated `addResolver`. -/
def Context.resolvers (l : List (ContextResolver α)) : ContextResolvers α :=
  l.foldl (fun t r => t.addResolver r) ⟨[]⟩

/-- The `context` field of an `IContext`: `IContext | IContext[] | null |
undefined`, referencing heap nodes by id. -/
inductive CtxEdge : Type where
  | nil
  | one (i : Nat)
  | many (is : List Nat)
deriving DecidableEq, Repr

/-- The parents the source enqueues for a node: nothing for a nullish
`context`, the single node, or each element of the array in order. -/
def CtxEdge.toList : CtxEdge → List Nat
  | .nil => []
  | .one i => [i]
  | .many is => is

/-- The three `IContext` fields of a node. -/
structure NodeData (α : Type) where
  context : CtxEdge
  contextType : Option Context
  contextResolvers : Option (ContextResolvers α)

/-- A heap of nodes: the ids of the existing node objects and their field
data. -/
structure Graph (α : Type) where
  univ : List Nat
  data : Nat → NodeData α

/-- The result of a successful `findResolver`: either the memoized
self-type resolver `() => instance` for node `i`, or a producer from a
resolver table. -/
inductive Res (α : Type) where
  | selfR (i : Nat)
  | tableR (v : α)
deriving DecidableEq, Repr

/-- A resolved value: the node object itself (self-type match) or the
value produced by a table resolver. -/
inductive Value (α : Type) where
  | nodeVal (i : Nat)
  | pureVal (v : α)
deriving DecidableEq, Repr

/-- Invoking the resolver thunk returned by `findResolver`. -/
def Res.run : Res α → Value α
  | .selfR i => .nodeVal i
  | .tableR v => .pureVal v

/-- `Context.contextTypeResolver(instance)` (private method): walk the
lookup key's parent chain from the key itself outward; if the node's
`contextType` is identical to a key in the chain, return the (memoized)
resolver that yields the node itself. -/
def Context.contextTypeResolver (ct : Option Context) (i : Nat) :
    Context → Option (Res α)
  | .root ki n =>
      if ct = some (.root ki n) then some (.selfR i) else none
  | .derived ki n p =>
      if ct = some (.derived ki n p) then some (.selfR i)
      else Context.contextTypeResolver ct i p

/-- The per-node match of the `findResolver` loop body:
`this.contextTypeResolver(instance) ?? instance.contextResolvers?.findResolver(this)`. -/
def Context.matchAt (g : Graph α) (k : Context) (i : Nat) : Option (Res α) :=
  match Context.contextTypeResolver (g.data i).contextType i k with
  | some r => some r
  | none =>
    match (g.data i).contextResolvers with
    | some rs => (rs.findResolver k).map Res.tableR
    | none => none

/-- `bfsQueue.add(parent)` for each parent in order: append each parent
that is a heap object and not already in the visited set to both the
un-iterated queue suffix and the visited set. -/
def addParents (univ : List Nat) : List Nat → List Nat → List Nat →
    List Nat × List Nat
  | [], queue, seen => (queue, seen)
  | p :: ps, queue, seen =>
    if p ∈ seen ∨ p ∉ univ then addParents univ ps queue seen
    else addParents univ ps (queue ++ [p]) (seen ++ [p])

/-- The elements `addParents` appends: the parents, in order, that are
heap objects not yet in the visited set (each becomes visited on adding). -/
def newElems (univ : List Nat) : List Nat → List Nat → List Nat
  | [], _ => []
  | p :: ps, seen =>
    if p ∈ seen ∨ p ∉ univ then newElems univ ps seen
    else p :: newElems univ ps (seen ++ [p])

/-- The loop of `Context.findResolver`: `queue` is the un-iterated suffix of
the JS `Set` iteration, `seen` the full contents of the `Set` (insertion
order).  Returns the result together with the list of nodes the loop
iterated over, in order. -/
def bfsAux (g : Graph α) (k : Context) (queue seen : List Nat) :
    Option (Res α) × List Nat :=
  match queue with
  | [] => (none, [])
  | i :: rest =>
    match Context.matchAt g k i with
    | some r => (some r, [i])
    | none =>
      let qs := addParents g.univ (g.data i).context.toList rest seen
      let out := bfsAux g k qs.1 qs.2
      (out.1, i :: out.2)
termination_by (g.univ.filter (fun x => ¬ x ∈ seen)).length + queue.length
decreasing_by
  have key : ∀ (ps queue seen : List Nat),
      ((g.univ.filter (fun x => ¬ x ∈ (addParents g.univ ps queue seen).2)).length
        + (addParents g.univ ps queue seen).1.length)
      ≤ (g.univ.filter (fun x => ¬ x ∈ seen)).length + queue.length := by
    intro ps
    induction ps with
    | nil =>
      intro queue seen
      exact Nat.le_of_eq rfl
    | cons p ps ih =>
      intro queue seen
      rw [show addParents g.univ (p :: ps) queue seen
          = if p ∈ seen ∨ p ∉ g.univ then addParents g.univ ps queue seen
            else addParents g.univ ps (queue ++ [p]) (seen ++ [p]) from rfl]
      by_cases hc : p ∈ seen ∨ p ∉ g.univ
      · rw [if_pos hc]
        exact ih queue seen
      · push_neg at hc
        obtain ⟨hps, hpu⟩ := hc
        have hstep :
            (g.univ.filter (fun x => ¬ x ∈ seen ++ [p])).length + 1
              ≤ (g.univ.filter (fun x => ¬ x ∈ seen)).length := by
          have hsub : g.univ.filter (fun x => ¬ x ∈ seen ++ [p])
              = (g.univ.filter (fun x => ¬ x ∈ seen)).filter
                  (fun x => ¬ x = p) := by
            rw [List.filter_filter]
            apply List.filter_congr
            intro x _
            simp [List.mem_append, and_comm, not_or]
          have hmem : p ∈ g.univ.filter (fun x => ¬ x ∈ seen) := by
            simp [List.mem_filter, hpu, hps]
          have hlt : ((g.univ.filter (fun x => ¬ x ∈ seen)).filter
              (fun x => ¬ x = p)).length
                < (g.univ.filter (fun x => ¬ x ∈ seen)).length := by
            apply List.length_filter_lt_length_iff_exists.mpr
            exact ⟨p, hmem, by simp⟩
          rw [hsub]
          omega
        rw [if_neg (by simp [hps, hpu])]
        calc ((g.univ.filter (fun x =>
                ¬ x ∈ (addParents g.univ ps (queue ++ [p]) (seen ++ [p])).2)).length
              + (addParents g.univ ps (queue ++ [p]) (seen ++ [p])).1.length)
            ≤ (g.univ.filter (fun x => ¬ x ∈ seen ++ [p])).length
                + (queue ++ [p]).length :=
              ih (queue ++ [p]) (seen ++ [p])
          _ ≤ (g.univ.filter (fun x => ¬ x ∈ seen)).length + queue.length := by
              simp only [List.length_append, List.length_cons, List.length_nil]
              omega
  have h := key (g.data i).context.toList rest seen
  simp only [List.length_cons]
  omega

/-- `Context.findResolver(startInstance)`: breadth-first search from the
start node through `context` edges, with the `Set`-based visited-queue. -/
def Context.findResolver (g : Graph α) (k : Context) (start : Nat) :
    Option (Res α) :=
  (bfsAux g k [start] [start]).1

/-- The iteration order of `Context.findResolver`'s loop: the nodes the
`for (const instance of bfsQueue)` loop processes, in order. -/
def Context.visitOrder (g : Graph α) (k : Context) (start : Nat) : List Nat :=
  (bfsAux g k [start] [start]).2

/-- `Context.resolve(instance)`: invoke the found resolver, or throw
`Cannot find resolver for context ${this.name}`. -/
def Context.resolve (g : Graph α) (k : Context) (start : Nat) :
    Except String (Value α) :=
  match Context.findResolver g k start with
  | some r => .ok r.run
  | none => .error ("Cannot find resolver for context " ++ k.name)

/-- `Context.resolveMaybe(instance)`: invoke the found resolver, or return
`undefined`. -/
def Context.resolveMaybe (g : Graph α) (k : Context) (start : Nat) :
    Option (Value α) :=
  match Context.findResolver g k start with
  | some r => some r.run
  | none => none

/-- A JS value sitting in a `requiredContexts` property slot: `undefined`,
`null`, some truthy non-array value, some falsy non-array value, or an
array of context keys. -/
inductive ReqVal : Type where
  | undef
  | nullV
  | truthyNonArray
  | falsyNonArray
  | arr (ks : List Context)

/-- JS nullish coalescing `a ?? b`. -/
def ReqVal.coalesce : ReqVal → ReqVal → ReqVal
  | .undef, b => b
  | .nullV, b => b
  | a, _ => a

/-- The guard `requiredContexts && Array.isArray(requiredContexts)`:
passes exactly for an array (arrays are truthy, even when empty). -/
def ReqVal.asArray : ReqVal → Option (List Context)
  | .arr ks => some ks
  | _ => none

/-- An application instance as `Context.checkRequired` sees it: its node id
in the heap (it is itself an `IContext`), its own `requiredContexts`
property, its constructor's `requiredContexts` property, and the
constructor's name. -/
structure Instance where
  node : Nat
  requiredContexts : ReqVal
  ctorRequiredContexts : ReqVal
  ctorName : String

/-- `Context.checkRequired(instance)`: read `instance.requiredContexts ??
constructor?.requiredContexts`; when it is an array, every listed key with
no resolver reachable from the instance is missing; when any key is
missing, throw the diagnostic error (returned as `some message`), else
return normally (`none`). -/
def Context.checkRequired (g : Graph α) (inst : Instance) : Option String :=
  match (inst.requiredContexts.coalesce inst.ctorRequiredContexts).asArray with
  | some requiredContexts =>
    let missingContexts := requiredContexts.filter
      (fun k => (Context.findResolver g k inst.node).isNone)
    if missingContexts.length > 0 then
      some ("Missing required contexts for instance of class '"
        ++ inst.ctorName ++ "': "
        ++ String.intercalate ", " (missingContexts.map Context.name))
    else none
  | none => none

/-- Reachability in the node graph along `context` edges, from the start
node through parents. -/
inductive Reachable (g : Graph α) (start : Nat) : Nat → Prop where
  | refl : Reachable g start start
  | step {j p : Nat} : Reachable g start j → p ∈ (g.data j).context.toList →
      Reachable g start p

/-! ## Helper lemmas about the search primitives -/

theorem contextTypeResolver_none (i : Nat) (k : Context) :
    Context.contextTypeResolver (α := α) none i k = none := by
  induction k with
  | root ki n => simp [Context.contextTypeResolver]
  | derived ki n p ih => simp [Context.contextTypeResolver, ih]

theorem contextTypeResolver_of_mem_chain {ct : Option Context} (i : Nat)
    {k kt : Context} (hmem : kt ∈ k.chain) (hct : ct = some kt) :
    Context.contextTypeResolver (α := α) ct i k = some (.selfR i) := by
  induction k with
  | root ki n =>
    simp only [Context.chain, List.mem_singleton] at hmem
    simp [Context.contextTypeResolver, hct, hmem]
  | derived ki n p ih =>
    simp only [Context.chain, List.mem_cons] at hmem
    rcases hmem with h | h
    · simp [Context.contextTypeResolver, hct, h]
    · simp only [Context.contextTypeResolver]
      split
      · rfl
      · exact ih h

theorem contextTypeResolver_of_not_mem_chain {ct : Option Context} (i : Nat)
    {k : Context} (h : ∀ kt ∈ k.chain, ct ≠ some kt) :
    Context.contextTypeResolver (α := α) ct i k = none := by
  induction k with
  | root ki n =>
    have := h (.root ki n) (by simp [Context.chain])
    simp [Context.contextTypeResolver, this]
  | derived ki n p ih =>
    have hhead := h (.derived ki n p) (by simp [Context.chain])
    simp only [Context.contextTypeResolver, if_neg hhead]
    exact ih (fun kt hkt => h kt (by simp [Context.chain, hkt]))

theorem tableFind_of_not_mem_chain {rs : ContextResolvers α} {k : Context}
    (h : ∀ kt ∈ k.chain, mapGet rs.resolvers kt = none) :
    rs.findResolver k = none := by
  induction k with
  | root ki n =>
    have := h (.root ki n) (by simp [Context.chain])
    simp [ContextResolvers.findResolver, this]
  | derived ki n p ih =>
    have hhead := h (.derived ki n p) (by simp [Context.chain])
    simp only [ContextResolvers.findResolver, hhead]
    exact ih (fun kt hkt => h kt (by simp [Context.chain, hkt]))

theorem tableFind_singleton (k : Context) (v : α) :
    ContextResolvers.findResolver ⟨[(k, v)]⟩ k = some v := by
  cases k <;> simp [ContextResolvers.findResolver, mapGet]

/-- `Context.matchAt` fails exactly when the node's `contextType` is not in
the key's chain and its table (if any) has no entry for any key of the
chain. -/
theorem matchAt_eq_none {g : Graph α} {k : Context} {i : Nat}
    (hct : ∀ kt ∈ k.chain, (g.data i).contextType ≠ some kt)
    (htab : ∀ rs, (g.data i).contextResolvers = some rs →
      ∀ kt ∈ k.chain, mapGet rs.resolvers kt = none) :
    Context.matchAt g k i = none := by
  unfold Context.matchAt
  rw [contextTypeResolver_of_not_mem_chain i hct]
  match hrs : (g.data i).contextResolvers with
  | none => rfl
  | some rs => simp [tableFind_of_not_mem_chain (htab rs hrs)]

/-! ## Decomposing `addParents` -/

theorem addParents_nil (univ queue seen : List Nat) :
    addParents univ [] queue seen = (queue, seen) := rfl

theorem addParents_cons (univ : List Nat) (p : Nat) (ps queue seen : List Nat) :
    addParents univ (p :: ps) queue seen =
      if p ∈ seen ∨ p ∉ univ then addParents univ ps queue seen
      else addParents univ ps (queue ++ [p]) (seen ++ [p]) := rfl

theorem addParents_eq (univ : List Nat) (ps : List Nat) :
    ∀ queue seen, addParents univ ps queue seen
      = (queue ++ newElems univ ps seen, seen ++ newElems univ ps seen) := by
  induction ps with
  | nil => intro q s; simp [addParents_nil, newElems]
  | cons p ps ih =>
    intro q s
    rw [addParents_cons]
    by_cases hc : p ∈ s ∨ p ∉ univ
    · rw [if_pos hc, ih]
      simp [newElems, hc]
    · rw [if_neg hc, ih]
      simp [newElems, hc, List.append_assoc]

theorem newElems_mem (univ : List Nat) :
    ∀ ps seen x, x ∈ newElems univ ps seen → x ∈ univ ∧ x ∉ seen ∧ x ∈ ps := by
  intro ps
  induction ps with
  | nil => intro s x hx; simp [newElems] at hx
  | cons p ps ih =>
    intro s x hx
    by_cases hc : p ∈ s ∨ p ∉ univ
    · rw [newElems, if_pos hc] at hx
      obtain ⟨h1, h2, h3⟩ := ih s x hx
      exact ⟨h1, h2, by simp [h3]⟩
    · rw [newElems, if_neg hc] at hx
      push_neg at hc
      rcases List.mem_cons.mp hx with rfl | hx
      · exact ⟨hc.2, hc.1, by simp⟩
      · obtain ⟨h1, h2, h3⟩ := ih (s ++ [p]) x hx
        refine ⟨h1, fun hxs => h2 (by simp [hxs]), by simp [h3]⟩

theorem seen_newElems_nodup (univ : List Nat) :
    ∀ ps seen, seen.Nodup → (seen ++ newElems univ ps seen).Nodup := by
  intro ps
  induction ps with
  | nil => intro s hs; simpa [newElems] using hs
  | cons p ps ih =>
    intro s hs
    by_cases hc : p ∈ s ∨ p ∉ univ
    · rw [newElems, if_pos hc]; exact ih s hs
    · rw [newElems, if_neg hc]
      push_neg at hc
      have hs' : (s ++ [p]).Nodup := by
        simp [List.nodup_append, hs, hc.1]
      have := ih (s ++ [p]) hs'
      simpa [List.append_assoc] using this

/-! ## Unfolding equations and invariants of the breadth-first loop -/

theorem bfsAux_eq_nil (g : Graph α) (k : Context) (seen : List Nat) :
    bfsAux g k [] seen = (none, []) := by
  rw [bfsAux]

theorem bfsAux_cons_found {g : Graph α} {k : Context} {i : Nat} {r : Res α}
    (h : Context.matchAt g k i = some r) (rest seen : List Nat) :
    bfsAux g k (i :: rest) seen = (some r, [i]) := by
  rw [bfsAux, h]

theorem bfsAux_cons_notfound {g : Graph α} {k : Context} {i : Nat}
    (h : Context.matchAt g k i = none) (rest seen : List Nat) :
    bfsAux g k (i :: rest) seen =
      ((bfsAux g k (rest ++ newElems g.univ (g.data i).context.toList seen)
                   (seen ++ newElems g.univ (g.data i).context.toList seen)).1,
       i :: (bfsAux g k (rest ++ newElems g.univ (g.data i).context.toList seen)
                   (seen ++ newElems g.univ (g.data i).context.toList seen)).2) := by
  rw [bfsAux, h]
  simp [addParents_eq]

/-- If no reachable node matches, the loop reports no resolver. -/
theorem bfsAux_none {g : Graph α} {k : Context} {start : Nat}
    (hall : ∀ j, Reachable g start j → Context.matchAt g k j = none) :
    ∀ queue seen, (∀ j ∈ queue, Reachable g start j) →
      (bfsAux g k queue seen).1 = none := by
  intro queue seen
  induction queue, seen using bfsAux.induct g k with
  | case1 seen =>
    intro _
    simp [bfsAux_eq_nil]
  | case2 seen i rest r hmatch =>
    intro hq
    have := hall i (hq i (by simp))
    rw [this] at hmatch
    exact absurd hmatch (by simp)
  | case3 seen i rest hmatch qs ih =>
    intro hq
    rw [bfsAux_cons_notfound hmatch]
    have hqs : qs = (rest ++ newElems g.univ (g.data i).context.toList seen,
        seen ++ newElems g.univ (g.data i).context.toList seen) := by
      have h0 : qs = addParents g.univ (g.data i).context.toList rest seen := rfl
      rw [h0, addParents_eq]
    rw [hqs] at ih
    apply ih
    intro j hj
    rcases List.mem_append.mp hj with hj | hj
    · exact hq j (by simp [hj])
    · obtain ⟨_, _, hp⟩ := newElems_mem g.univ _ _ j hj
      exact Reachable.step (hq i (by simp)) hp

/-- Every iterated node was either already queued or is an unvisited heap
node. -/
theorem bfsAux_trace_mem {g : Graph α} {k : Context} :
    ∀ queue seen, ∀ x ∈ (bfsAux g k queue seen).2,
      x ∈ queue ∨ (x ∈ g.univ ∧ x ∉ seen) := by
  intro queue seen
  induction queue, seen using bfsAux.induct g k with
  | case1 seen =>
    simp [bfsAux_eq_nil]
  | case2 seen i rest r hmatch =>
    intro x hx
    rw [bfsAux_cons_found hmatch] at hx
    simp only [List.mem_singleton] at hx
    subst hx
    exact Or.inl (by simp)
  | case3 seen i rest hmatch qs ih =>
    intro x hx
    rw [bfsAux_cons_notfound hmatch] at hx
    have hqs : qs = (rest ++ newElems g.univ (g.data i).context.toList seen,
        seen ++ newElems g.univ (g.data i).context.toList seen) := by
      have h0 : qs = addParents g.univ (g.data i).context.toList rest seen := rfl
      rw [h0, addParents_eq]
    rw [hqs] at ih
    rcases List.mem_cons.mp hx with rfl | hx
    · exact Or.inl (by simp)
    · rcases ih x hx with hq | ⟨hu, hs⟩
      · rcases List.mem_append.mp hq with h | h
        · exact Or.inl (by simp [h])
        · obtain ⟨h1, h2, _⟩ := newElems_mem g.univ _ _ x h
          exact Or.inr ⟨h1, h2⟩
      · refine Or.inr ⟨hu, fun hxs => hs ?_⟩
        simp [hxs]

/-- The loop iterates over each node at most once: the visited set
deduplicates.  `seen` lists the `Set`'s contents, of which `queue` is the
un-iterated suffix. -/
theorem bfsAux_trace_nodup {g : Graph α} {k : Context} :
    ∀ queue seen, seen.Nodup → (∃ pp, seen = pp ++ queue) →
      (bfsAux g k queue seen).2.Nodup := by
  intro queue seen
  induction queue, seen using bfsAux.induct g k with
  | case1 seen =>
    intro _ _
    simp [bfsAux_eq_nil]
  | case2 seen i rest r hmatch =>
    intro _ _
    rw [bfsAux_cons_found hmatch]
    simp
  | case3 seen i rest hmatch qs ih =>
    intro hnd ⟨pp, hpp⟩
    rw [bfsAux_cons_notfound hmatch]
    have hqs : qs = (rest ++ newElems g.univ (g.data i).context.toList seen,
        seen ++ newElems g.univ (g.data i).context.toList seen) := by
      have h0 : qs = addParents g.univ (g.data i).context.toList rest seen := rfl
      rw [h0, addParents_eq]
    rw [hqs] at ih
    have hIinSeen : i ∈ seen := by simp [hpp]
    have hnd' : (seen ++ newElems g.univ (g.data i).context.toList seen).Nodup :=
      seen_newElems_nodup g.univ _ seen hnd
    have hsplit : seen ++ newElems g.univ (g.data i).context.toList seen
        = (pp ++ [i]) ++ (rest ++ newElems g.univ (g.data i).context.toList seen) := by
      simp [hpp, List.append_assoc]
    have htail : (bfsAux g k
        (rest ++ newElems g.univ (g.data i).context.toList seen)
        (seen ++ newElems g.univ (g.data i).context.toList seen)).2.Nodup :=
      ih hnd' ⟨pp ++ [i], hsplit⟩
    refine List.nodup_cons.mpr ⟨?_, htail⟩
    intro hmem
    rcases bfsAux_trace_mem _ _ i hmem with hq | ⟨_, hs⟩
    · rcases List.mem_append.mp hq with h | h
      · have : (i :: rest).Nodup := by
          have := hnd
          rw [hpp] at this
          exact (List.nodup_append.mp this).2.1
        exact (List.nodup_cons.mp this).1 h
      · exact (newElems_mem g.univ _ _ i h).2.1 hIinSeen
    · exact hs (by simp [hIinSeen])

/-- Every iterated node is reachable from the nodes initially queued. -/
theorem bfsAux_trace_reachable {g : Graph α} {k : Context} {start : Nat} :
    ∀ queue seen, (∀ j ∈ queue, Reachable g start j) →
      ∀ x ∈ (bfsAux g k queue seen).2, Reachable g start x := by
  intro queue seen
  induction queue, seen using bfsAux.induct g k with
  | case1 seen =>
    simp [bfsAux_eq_nil]
  | case2 seen i rest r hmatch =>
    intro hq x hx
    rw [bfsAux_cons_found hmatch] at hx
    simp only [List.mem_singleton] at hx
    subst hx
    exact hq x (by simp)
  | case3 seen i rest hmatch qs ih =>
    intro hq x hx
    rw [bfsAux_cons_notfound hmatch] at hx
    have hqs : qs = (rest ++ newElems g.univ (g.data i).context.toList seen,
        seen ++ newElems g.univ (g.data i).context.toList seen) := by
      have h0 : qs = addParents g.univ (g.data i).context.toList rest seen := rfl
      rw [h0, addParents_eq]
    rw [hqs] at ih
    rcases List.mem_cons.mp hx with rfl | hx
    · exact hq x (by simp)
    · refine ih ?_ x hx
      intro j hj
      rcases List.mem_append.mp hj with hj | hj
      · exact hq j (by simp [hj])
      · obtain ⟨_, _, hp⟩ := newElems_mem g.univ _ _ j hj
        exact Reachable.step (hq i (by simp)) hp

/-- The iteration order of `findResolver` never repeats a node. -/
theorem visitOrder_nodup (g : Graph α) (k : Context) (start : Nat) :
    (Context.visitOrder g k start).Nodup :=
  bfsAux_trace_nodup [start] [start] (by simp) ⟨[], rfl⟩

/-- Every iterated node is the start node or a heap node. -/
theorem visitOrder_sub (g : Graph α) (k : Context) (start : Nat) :
    ∀ x ∈ Context.visitOrder g k start, x ∈ start :: g.univ := by
  intro x hx
  rcases bfsAux_trace_mem [start] [start] x hx with h | ⟨h, _⟩
  · simpa using Or.inl (List.mem_singleton.mp h)
  · simp [h]

/-- Every iterated node is reachable from the start node. -/
theorem visitOrder_reachable (g : Graph α) (k : Context) (start : Nat) :
    ∀ x ∈ Context.visitOrder g k start, Reachable g start x :=
  bfsAux_trace_reachable [start] [start]
    (by intro j hj; rw [List.mem_singleton.mp hj]; exact Reachable.refl)

/-- The loop runs at most one iteration more than there are heap nodes. -/
theorem visitOrder_length (g : Graph α) (k : Context) (start : Nat) :
    (Context.visitOrder g k start).length ≤ g.univ.length + 1 := by
  have h := ((visitOrder_nodup g k start).subperm
    (visitOrder_sub g k start)).length_le
  simpa using h

theorem matchAt_selfType {g : Graph α} {k : Context} {i : Nat} {kt : Context}
    (hct : (g.data i).contextType = some kt) (hmem : kt ∈ k.chain) :
    Context.matchAt g k i = some (.selfR i) := by
  unfold Context.matchAt
  rw [contextTypeResolver_of_mem_chain i hmem hct]

theorem matchAt_table {g : Graph α} {k : Context} {i : Nat}
    {rs : ContextResolvers α} {v : α}
    (hct : Context.contextTypeResolver (α := α) (g.data i).contextType i k = none)
    (hrs : (g.data i).contextResolvers = some rs)
    (hfind : rs.findResolver k = some v) :
    Context.matchAt g k i = some (.tableR v) := by
  unfold Context.matchAt
  rw [hct, hrs]
  simp [hfind]

/-- A key freshly derived from `k` is a different key than `k` itself
(its parent chain is strictly longer). -/
theorem derived_ne_self (i : Nat) (n : String) (k : Context) :
    Context.derived i n k ≠ k := by
  intro h
  have h2 := congrArg sizeOf h
  simp only [Context.derived.sizeOf_spec] at h2
  omega

/-! ## Claim theorems -/

/-- C1: for every node `start` and key `k`, if no node reachable from
`start` (including `start`) has its `contextType` equal to a key of `k`'s
parent chain, and no resolver table on a reachable node has an entry for
`k` or an ancestor key of `k`, then `resolveMaybe` returns `undefined` and
`resolve` throws the not-found error, whose message contains `k`'s
diagnostic name. -/
theorem C1_unreachable_not_found {α : Type} (g : Graph α) (k : Context)
    (start : Nat)
    (h : ∀ j, Reachable g start j →
      (∀ kt ∈ k.chain, (g.data j).contextType ≠ some kt) ∧
      (∀ rs, (g.data j).contextResolvers = some rs →
        ∀ kt ∈ k.chain, mapGet rs.resolvers kt = none)) :
    Context.resolveMaybe g k start = none ∧
    Context.resolve g k start =
      .error ("Cannot find resolver for context " ++ k.name) := by
  have hfr : Context.findResolver g k start = none := by
    unfold Context.findResolver
    apply bfsAux_none (fun j hj => matchAt_eq_none (h j hj).1 (h j hj).2)
    intro j hj
    rw [List.mem_singleton.mp hj]
    exact Reachable.refl
  constructor
  · unfold Context.resolveMaybe
    rw [hfr]
  · unfold Context.resolve
    rw [hfr]

theorem C1_unreachable_not_found_witness :
    Context.resolveMaybe
        (⟨[], fun _ => ⟨.nil, none, none⟩⟩ : Graph String) (.root 0 "K") 0 = none ∧
    Context.resolve
        (⟨[], fun _ => ⟨.nil, none, none⟩⟩ : Graph String) (.root 0 "K") 0 =
      .error ("Cannot find resolver for context " ++ (Context.root 0 "K").name) :=
  C1_unreachable_not_found _ _ _
    (fun j _ => ⟨fun kt _ => by simp, fun rs hrs => by cases hrs⟩)

/-- C9 (implicit): `findResolver` terminates on every finite node graph —
it is a total function of the model — and its loop never iterates over the
same node twice, only iterates over nodes reachable from the start node,
and runs at most one iteration more than there are heap nodes.  A cycle in
the `context` edges is therefore never a source of non-termination. -/
theorem C9_terminates_no_revisit {α : Type} (g : Graph α) (k : Context)
    (start : Nat) :
    (Context.visitOrder g k start).Nodup ∧
    (∀ x ∈ Context.visitOrder g k start, Reachable g start x) ∧
    (Context.visitOrder g k start).length ≤ g.univ.length + 1 :=
  ⟨visitOrder_nodup g k start, visitOrder_reachable g k start,
    visitOrder_length g k start⟩

/-- C2: closest ancestor wins under breadth-first order.  For every chain
`n3 → n2 → n1` (in any heap containing it) where both `n1`'s and `n2`'s
resolver tables have an entry for `k`, resolving `k` from `n3` produces
the value of `n2`'s resolver, not `n1`'s. -/
theorem C2_closest_ancestor_wins {α : Type} (g : Graph α) (k : Context)
    (v1 v2 : α) (n1 n2 n3 : Nat)
    (hU2 : n2 ∈ g.univ)
    (h3 : g.data n3 = ⟨.one n2, none, none⟩)
    (h2 : g.data n2 = ⟨.one n1, none, some ⟨[(k, v2)]⟩⟩)
    (h1 : g.data n1 = ⟨.nil, none, some ⟨[(k, v1)]⟩⟩)
    (h23 : n2 ≠ n3) :
    Context.findResolver g k n3 = some (.tableR v2) ∧
    Context.resolve g k n3 = .ok (.pureVal v2) := by
  have hm3 : Context.matchAt g k n3 = none :=
    matchAt_eq_none (by simp [h3]) (by simp [h3])
  have hctr2 : Context.contextTypeResolver (α := α) (g.data n2).contextType n2 k
      = none := by
    rw [h2]
    exact contextTypeResolver_none n2 k
  have hm2 : Context.matchAt g k n2 = some (.tableR v2) :=
    matchAt_table hctr2 (by rw [h2]) (tableFind_singleton k v2)
  have hnews : newElems g.univ (g.data n3).context.toList [n3] = [n2] := by
    rw [h3]
    show newElems g.univ [n2] [n3] = [n2]
    simp only [newElems]
    rw [if_neg]
    simp [h23, hU2]
  have hfr : Context.findResolver g k n3 = some (.tableR v2) := by
    unfold Context.findResolver
    rw [bfsAux_cons_notfound hm3, hnews]
    show (bfsAux g k [n2] [n3, n2]).1 = some (.tableR v2)
    rw [bfsAux_cons_found hm2]
  refine ⟨hfr, ?_⟩
  unfold Context.resolve
  rw [hfr]
  rfl

theorem C2_closest_ancestor_wins_witness :
    Context.findResolver
      (⟨[3, 2, 1], fun i =>
        if i = 3 then ⟨.one 2, none, none⟩
        else if i = 2 then ⟨.one 1, none, some ⟨[(.root 0 "K", "v2")]⟩⟩
        else if i = 1 then ⟨.nil, none, some ⟨[(.root 0 "K", "v1")]⟩⟩
        else ⟨.nil, none, none⟩⟩ : Graph String)
      (.root 0 "K") 3 = some (.tableR "v2") ∧
    Context.resolve
      (⟨[3, 2, 1], fun i =>
        if i = 3 then ⟨.one 2, none, none⟩
        else if i = 2 then ⟨.one 1, none, some ⟨[(.root 0 "K", "v2")]⟩⟩
        else if i = 1 then ⟨.nil, none, some ⟨[(.root 0 "K", "v1")]⟩⟩
        else ⟨.nil, none, none⟩⟩ : Graph String)
      (.root 0 "K") 3 = .ok (.pureVal "v2") :=
  C2_closest_ancestor_wins _ (.root 0 "K") "v1" "v2" 1 2 3
    (by simp) (by simp) (by simp) (by simp) (by simp)

/-- Every key is the head of its own parent chain. -/
theorem chain_self (k : Context) : k ∈ k.chain := by
  cases k <;> simp [Context.chain]

/-- C3: at a single node where, for the same lookup key `k`, both a
self-type match (`contextType` in `k`'s chain) and a resolver-table match
exist, `findResolver` returns the self-type producer resolving to the node
itself, not the table entry. -/
theorem C3_selfType_beats_table {α : Type} (g : Graph α) (k kt : Context)
    (rs : ContextResolvers α) (n : Nat) (e : CtxEdge)
    (hmem : kt ∈ k.chain)
    (hdata : g.data n = ⟨e, some kt, some rs⟩)
    (htab : ∃ v, rs.findResolver k = some v) :
    Context.findResolver g k n = some (.selfR n) ∧
    Context.resolve g k n = .ok (.nodeVal n) := by
  have hm : Context.matchAt g k n = some (.selfR n) :=
    matchAt_selfType (by rw [hdata]) hmem
  have hfr : Context.findResolver g k n = some (.selfR n) := by
    unfold Context.findResolver
    rw [bfsAux_cons_found hm]
  refine ⟨hfr, ?_⟩
  unfold Context.resolve
  rw [hfr]
  rfl

theorem C3_selfType_beats_table_witness :
    Context.findResolver
      (⟨[5], fun i =>
        if i = 5 then ⟨.nil, some (.root 0 "K"), some ⟨[(.root 0 "K", "v")]⟩⟩
        else ⟨.nil, none, none⟩⟩ : Graph String)
      (.root 0 "K") 5 = some (.selfR 5) ∧
    Context.resolve
      (⟨[5], fun i =>
        if i = 5 then ⟨.nil, some (.root 0 "K"), some ⟨[(.root 0 "K", "v")]⟩⟩
        else ⟨.nil, none, none⟩⟩ : Graph String)
      (.root 0 "K") 5 = .ok (.nodeVal 5) :=
  C3_selfType_beats_table _ (.root 0 "K") (.root 0 "K") ⟨[(.root 0 "K", "v")]⟩
    5 .nil (chain_self _) (by simp) ⟨"v", tableFind_singleton _ _⟩

/-- C4: self-type matches resolve to the node itself, across multi-parent
fan-in: for a node `n` with parents `[p1, p2]` where `p1.contextType = k1`
and `p2.contextType = k2`, resolving `k1` from a child `c` of `n` returns
the node `p1` itself, and resolving `k2` returns `p2` itself. -/
theorem C4_multi_parent_fan_in {α : Type} (g : Graph α) (k1 k2 : Context)
    (c n p1 p2 : Nat)
    (hUn : n ∈ g.univ) (hU1 : p1 ∈ g.univ) (hU2 : p2 ∈ g.univ)
    (hc : g.data c = ⟨.one n, none, none⟩)
    (hn : g.data n = ⟨.many [p1, p2], none, none⟩)
    (hp1 : g.data p1 = ⟨.nil, some k1, none⟩)
    (hp2 : g.data p2 = ⟨.nil, some k2, none⟩)
    (hnc : n ≠ c) (hp1c : p1 ≠ c) (hp1n : p1 ≠ n) (hp2c : p2 ≠ c)
    (hp2n : p2 ≠ n) (hp12 : p1 ≠ p2)
    (hk1 : k1 ∉ k2.chain) :
    Context.resolve g k1 c = .ok (.nodeVal p1) ∧
    Context.resolve g k2 c = .ok (.nodeVal p2) := by
  have hnews_c : newElems g.univ (g.data c).context.toList [c] = [n] := by
    rw [hc]
    show newElems g.univ [n] [c] = [n]
    simp only [newElems]
    rw [if_neg]
    simp [hnc, hUn]
  have hnews_n : newElems g.univ (g.data n).context.toList [c, n] = [p1, p2] := by
    rw [hn]
    show newElems g.univ [p1, p2] [c, n] = [p1, p2]
    have hcond1 : ¬ (p1 ∈ [c, n] ∨ p1 ∉ g.univ) := by simp [hp1c, hp1n, hU1]
    have hcond2 : ¬ (p2 ∈ [c, n] ++ [p1] ∨ p2 ∉ g.univ) := by
      simp [hp2c, hp2n, Ne.symm hp12, hU2]
    simp only [newElems]
    rw [if_neg hcond1, if_neg hcond2]
  -- resolving k1
  have hm1c : Context.matchAt g k1 c = none :=
    matchAt_eq_none (by simp [hc]) (by simp [hc])
  have hm1n : Context.matchAt g k1 n = none :=
    matchAt_eq_none (by simp [hn]) (by simp [hn])
  have hm1p1 : Context.matchAt g k1 p1 = some (.selfR p1) :=
    matchAt_selfType (by rw [hp1]) (chain_self k1)
  have hfr1 : Context.findResolver g k1 c = some (.selfR p1) := by
    unfold Context.findResolver
    rw [bfsAux_cons_notfound hm1c, hnews_c]
    show (bfsAux g k1 [n] [c, n]).1 = _
    rw [bfsAux_cons_notfound hm1n, hnews_n]
    show (bfsAux g k1 [p1, p2] [c, n, p1, p2]).1 = _
    rw [bfsAux_cons_found hm1p1]
  -- resolving k2
  have hm2c : Context.matchAt g k2 c = none :=
    matchAt_eq_none (by simp [hc]) (by simp [hc])
  have hm2n : Context.matchAt g k2 n = none :=
    matchAt_eq_none (by simp [hn]) (by simp [hn])
  have hm2p1 : Context.matchAt g k2 p1 = none :=
    matchAt_eq_none
      (by
        rw [hp1]
        intro kt hkt hcontra
        have hkk : k1 = kt := by simpa using hcontra
        exact hk1 (by rw [hkk]; exact hkt))
      (by simp [hp1])
  have hm2p2 : Context.matchAt g k2 p2 = some (.selfR p2) :=
    matchAt_selfType (by rw [hp2]) (chain_self k2)
  have hnews_p1 : newElems g.univ (g.data p1).context.toList [c, n, p1, p2]
      = [] := by
    rw [hp1]
    rfl
  have hfr2 : Context.findResolver g k2 c = some (.selfR p2) := by
    unfold Context.findResolver
    rw [bfsAux_cons_notfound hm2c, hnews_c]
    show (bfsAux g k2 [n] [c, n]).1 = _
    rw [bfsAux_cons_notfound hm2n, hnews_n]
    show (bfsAux g k2 [p1, p2] [c, n, p1, p2]).1 = _
    rw [bfsAux_cons_notfound hm2p1, hnews_p1]
    show (bfsAux g k2 [p2] [c, n, p1, p2]).1 = _
    rw [bfsAux_cons_found hm2p2]
  constructor
  · unfold Context.resolve
    rw [hfr1]
    rfl
  · unfold Context.resolve
    rw [hfr2]
    rfl

theorem C4_multi_parent_fan_in_witness :
    Context.resolve
      (⟨[1, 2, 3, 4], fun i =>
        if i = 1 then ⟨.one 2, none, none⟩
        else if i = 2 then ⟨.many [3, 4], none, none⟩
        else if i = 3 then ⟨.nil, some (.root 0 "K1"), none⟩
        else if i = 4 then ⟨.nil, some (.root 1 "K2"), none⟩
        else ⟨.nil, none, none⟩⟩ : Graph String)
      (.root 0 "K1") 1 = .ok (.nodeVal 3) ∧
    Context.resolve
      (⟨[1, 2, 3, 4], fun i =>
        if i = 1 then ⟨.one 2, none, none⟩
        else if i = 2 then ⟨.many [3, 4], none, none⟩
        else if i = 3 then ⟨.nil, some (.root 0 "K1"), none⟩
        else if i = 4 then ⟨.nil, some (.root 1 "K2"), none⟩
        else ⟨.nil, none, none⟩⟩ : Graph String)
      (.root 1 "K2") 1 = .ok (.nodeVal 4) :=
  C4_multi_parent_fan_in _ (.root 0 "K1") (.root 1 "K2") 1 2 3 4
    (by simp) (by simp) (by simp) (by simp) (by simp) (by simp) (by simp)
    (by simp) (by simp) (by simp) (by simp) (by simp) (by simp)
    (by simp [Context.chain])

/-- C5: partial-key fallback.  For `k2 = k1.partial(name)` (a fresh key
whose parent is `k1`), a resolver registered for `k1` in an ancestor's
table satisfies a lookup for `k2` from a descendant; and table lookup
walks `k2`'s own parent chain narrowest-first, so a table holding entries
for both `k2` and `k1` answers `k2`'s entry. -/
theorem C5_partial_key_fallback {α : Type} (g : Graph α) (k1 : Context)
    (nid : Nat) (nm : String) (v v1 v2 : α) (d a : Nat)
    (hUa : a ∈ g.univ)
    (hd : g.data d = ⟨.one a, none, none⟩)
    (ha : g.data a = ⟨.nil, none, some ⟨[(k1, v)]⟩⟩)
    (had : a ≠ d) :
    Context.findResolver g (k1.derivePartial nid nm) d = some (.tableR v) ∧
    ContextResolvers.findResolver ⟨[(k1.derivePartial nid nm, v2), (k1, v1)]⟩
      (k1.derivePartial nid nm) = some v2 := by
  have hget : mapGet [(k1, v)] (Context.derived nid nm k1) = none := by
    simp only [mapGet]
    rw [if_neg (Ne.symm (derived_ne_self nid nm k1))]
  have hfind : ContextResolvers.findResolver ⟨[(k1, v)]⟩
      (Context.derived nid nm k1) = some v := by
    simp only [ContextResolvers.findResolver]
    rw [hget]
    exact tableFind_singleton k1 v
  have hmd : Context.matchAt g (k1.derivePartial nid nm) d = none :=
    matchAt_eq_none (by simp [hd]) (by simp [hd])
  have hctra : Context.contextTypeResolver (α := α) (g.data a).contextType a
      (k1.derivePartial nid nm) = none := by
    rw [ha]
    exact contextTypeResolver_none a _
  have hma : Context.matchAt g (k1.derivePartial nid nm) a
      = some (.tableR v) :=
    matchAt_table hctra (by rw [ha]) hfind
  have hnews : newElems g.univ (g.data d).context.toList [d] = [a] := by
    rw [hd]
    show newElems g.univ [a] [d] = [a]
    simp only [newElems]
    rw [if_neg]
    simp [had, hUa]
  constructor
  · unfold Context.findResolver
    rw [bfsAux_cons_notfound hmd, hnews]
    show (bfsAux g (k1.derivePartial nid nm) [a] [d, a]).1 = _
    rw [bfsAux_cons_found hma]
  · show ContextResolvers.findResolver _ (Context.derived nid nm k1) = some v2
    simp [ContextResolvers.findResolver, mapGet, Context.derivePartial]

theorem C5_partial_key_fallback_witness :
    Context.findResolver
      (⟨[1, 2], fun i =>
        if i = 1 then ⟨.one 2, none, none⟩
        else if i = 2 then ⟨.nil, none, some ⟨[(.root 0 "K1", "v")]⟩⟩
        else ⟨.nil, none, none⟩⟩ : Graph String)
      ((Context.root 0 "K1").derivePartial 7 "K2") 1 = some (.tableR "v") ∧
    ContextResolvers.findResolver
      ⟨[((Context.root 0 "K1").derivePartial 7 "K2", "v2"), (.root 0 "K1", "v1")]⟩
      ((Context.root 0 "K1").derivePartial 7 "K2") = some "v2" :=
  C5_partial_key_fallback _ (.root 0 "K1") 7 "K2" "v" "v1" "v2" 1 2
    (by simp) (by simp) (by simp) (by simp)

/-- C6: diamond graphs terminate with the correct result.  For the diamond
`d → [a, b]`, `a → r`, `b → r` where only `r` has a table entry for `k`,
the loop iterates exactly over `[d, a, b, r]` — visiting the reconvergent
node `r` once — and still returns the nearest breadth-first match. -/
theorem C6_diamond_terminates {α : Type} (g : Graph α) (k : Context) (v : α)
    (d a b r : Nat)
    (hUa : a ∈ g.univ) (hUb : b ∈ g.univ) (hUr : r ∈ g.univ)
    (hd : g.data d = ⟨.many [a, b], none, none⟩)
    (ha : g.data a = ⟨.one r, none, none⟩)
    (hb : g.data b = ⟨.one r, none, none⟩)
    (hr : g.data r = ⟨.nil, none, some ⟨[(k, v)]⟩⟩)
    (had : a ≠ d) (hbd : b ≠ d) (hab : a ≠ b)
    (hrd : r ≠ d) (hra : r ≠ a) (hrb : r ≠ b) :
    Context.findResolver g k d = some (.tableR v) ∧
    Context.visitOrder g k d = [d, a, b, r] ∧
    (Context.visitOrder g k d).Nodup := by
  have hmd : Context.matchAt g k d = none :=
    matchAt_eq_none (by simp [hd]) (by simp [hd])
  have hma : Context.matchAt g k a = none :=
    matchAt_eq_none (by simp [ha]) (by simp [ha])
  have hmb : Context.matchAt g k b = none :=
    matchAt_eq_none (by simp [hb]) (by simp [hb])
  have hctrr : Context.contextTypeResolver (α := α) (g.data r).contextType r k
      = none := by
    rw [hr]
    exact contextTypeResolver_none r k
  have hmr : Context.matchAt g k r = some (.tableR v) :=
    matchAt_table hctrr (by rw [hr]) (tableFind_singleton k v)
  have hnews_d : newElems g.univ (g.data d).context.toList [d] = [a, b] := by
    rw [hd]
    show newElems g.univ [a, b] [d] = [a, b]
    have hcond1 : ¬ (a ∈ [d] ∨ a ∉ g.univ) := by simp [had, hUa]
    have hcond2 : ¬ (b ∈ [d] ++ [a] ∨ b ∉ g.univ) := by
      simp [hbd, Ne.symm hab, hUb]
    simp only [newElems]
    rw [if_neg hcond1, if_neg hcond2]
  have hnews_a : newElems g.univ (g.data a).context.toList [d, a, b] = [r] := by
    rw [ha]
    show newElems g.univ [r] [d, a, b] = [r]
    simp only [newElems]
    rw [if_neg]
    simp [hrd, hra, hrb, hUr]
  have hnews_b : newElems g.univ (g.data b).context.toList [d, a, b, r]
      = [] := by
    rw [hb]
    show newElems g.univ [r] [d, a, b, r] = []
    simp only [newElems]
    rw [if_pos (by simp)]
  have h4 : bfsAux g k [r] [d, a, b, r] = (some (.tableR v), [r]) :=
    bfsAux_cons_found hmr [] [d, a, b, r]
  have h3 : bfsAux g k [b, r] [d, a, b, r] = (some (.tableR v), [b, r]) := by
    rw [bfsAux_cons_notfound hmb, hnews_b]
    show ((bfsAux g k [r] [d, a, b, r]).1, b :: (bfsAux g k [r] [d, a, b, r]).2)
      = _
    rw [h4]
  have h2 : bfsAux g k [a, b] [d, a, b] = (some (.tableR v), [a, b, r]) := by
    rw [bfsAux_cons_notfound hma, hnews_a]
    show ((bfsAux g k [b, r] [d, a, b, r]).1,
          a :: (bfsAux g k [b, r] [d, a, b, r]).2) = _
    rw [h3]
  have h1 : bfsAux g k [d] [d] = (some (.tableR v), [d, a, b, r]) := by
    rw [bfsAux_cons_notfound hmd, hnews_d]
    show ((bfsAux g k [a, b] [d, a, b]).1,
          d :: (bfsAux g k [a, b] [d, a, b]).2) = _
    rw [h2]
  refine ⟨?_, ?_, visitOrder_nodup g k d⟩
  · unfold Context.findResolver
    rw [h1]
  · unfold Context.visitOrder
    rw [h1]

theorem C6_diamond_terminates_witness :
    Context.findResolver
      (⟨[1, 2, 3, 4], fun i =>
        if i = 1 then ⟨.many [2, 3], none, none⟩
        else if i = 2 then ⟨.one 4, none, none⟩
        else if i = 3 then ⟨.one 4, none, none⟩
        else if i = 4 then ⟨.nil, none, some ⟨[(.root 0 "K", "v")]⟩⟩
        else ⟨.nil, none, none⟩⟩ : Graph String)
      (.root 0 "K") 1 = some (.tableR "v") ∧
    Context.visitOrder
      (⟨[1, 2, 3, 4], fun i =>
        if i = 1 then ⟨.many [2, 3], none, none⟩
        else if i = 2 then ⟨.one 4, none, none⟩
        else if i = 3 then ⟨.one 4, none, none⟩
        else if i = 4 then ⟨.nil, none, some ⟨[(.root 0 "K", "v")]⟩⟩
        else ⟨.nil, none, none⟩⟩ : Graph String)
      (.root 0 "K") 1 = [1, 2, 3, 4] ∧
    (Context.visitOrder
      (⟨[1, 2, 3, 4], fun i =>
        if i = 1 then ⟨.many [2, 3], none, none⟩
        else if i = 2 then ⟨.one 4, none, none⟩
        else if i = 3 then ⟨.one 4, none, none⟩
        else if i = 4 then ⟨.nil, none, some ⟨[(.root 0 "K", "v")]⟩⟩
        else ⟨.nil, none, none⟩⟩ : Graph String)
      (.root 0 "K") 1).Nodup :=
  C6_diamond_terminates _ (.root 0 "K") "v" 1 2 3 4
    (by simp) (by simp) (by simp) (by simp) (by simp) (by simp) (by simp)
    (by simp) (by simp) (by simp) (by simp) (by simp) (by simp)

/-! ## Lemmas about the resolver table operations -/

theorem mapGet_map_overwrite (m : List (Context × α)) (k : Context) (v : α)
    (hany : m.any (fun e => decide (e.1 = k)) = true) :
    mapGet (m.map (fun e => if e.1 = k then (k, v) else e)) k = some v := by
  induction m with
  | nil => simp at hany
  | cons e m ih =>
    obtain ⟨ek, ev⟩ := e
    simp only [List.any_cons, Bool.or_eq_true, decide_eq_true_eq] at hany
    by_cases h1 : ek = k
    · subst h1
      simp only [List.map_cons, if_true]
      simp [mapGet]
    · have hm : m.any (fun e => decide (e.1 = k)) = true := by
        rcases hany with h | h
        · exact absurd h h1
        · simpa using h
      simp only [List.map_cons]
      rw [if_neg (by simpa using h1)]
      simp only [mapGet]
      rw [if_neg h1]
      exact ih hm

theorem mapGet_mapSet_self (m : List (Context × α)) (k : Context) (v : α) :
    mapGet (mapSet m k v) k = some v := by
  unfold mapSet
  by_cases hany : m.any (fun e => decide (e.1 = k)) = true
  · rw [if_pos hany]
    exact mapGet_map_overwrite m k v hany
  · rw [if_neg hany]
    induction m with
    | nil => simp [mapGet]
    | cons e m ih =>
      obtain ⟨ek, ev⟩ := e
      simp only [List.any_cons, Bool.or_eq_true, decide_eq_true_eq, not_or] at hany
      simp only [List.cons_append, mapGet]
      rw [if_neg hany.1]
      exact ih (by simpa using hany.2)

theorem mapGet_mapSet_ne (m : List (Context × α)) (k kt : Context) (v : α)
    (hne : kt ≠ k) :
    mapGet (mapSet m k v) kt = mapGet m kt := by
  unfold mapSet
  by_cases hany : m.any (fun e => decide (e.1 = k)) = true
  · rw [if_pos hany]
    clear hany
    induction m with
    | nil => rfl
    | cons e m ih =>
      obtain ⟨ek, ev⟩ := e
      by_cases h1 : ek = k
      · simp only [List.map_cons]
        rw [if_pos (by simpa using h1)]
        simp only [mapGet]
        rw [if_neg (Ne.symm hne), if_neg (by rw [h1]; exact Ne.symm hne)]
        exact ih
      · simp only [List.map_cons]
        rw [if_neg (by simpa using h1)]
        simp only [mapGet]
        by_cases h2 : ek = kt
        · rw [if_pos h2, if_pos h2]
        · rw [if_neg h2, if_neg h2]
          exact ih
  · rw [if_neg hany]
    clear hany
    induction m with
    | nil => simp [mapGet, Ne.symm hne]
    | cons e m ih =>
      obtain ⟨ek, ev⟩ := e
      simp only [List.cons_append, mapGet]
      by_cases h2 : ek = kt
      · rw [if_pos h2, if_pos h2]
      · rw [if_neg h2, if_neg h2]
        exact ih

theorem keys_mapSet_nodup (m : List (Context × α)) (k : Context) (v : α)
    (hnd : (m.map Prod.fst).Nodup) :
    ((mapSet m k v).map Prod.fst).Nodup := by
  unfold mapSet
  by_cases hany : m.any (fun e => decide (e.1 = k)) = true
  · rw [if_pos hany]
    have hkeys : (m.map (fun e => if e.1 = k then (k, v) else e)).map Prod.fst
        = m.map Prod.fst := by
      rw [List.map_map]
      apply List.map_congr_left
      intro e _
      by_cases h1 : e.1 = k
      · simp [h1]
      · simp [h1]
    rw [hkeys]
    exact hnd
  · rw [if_neg hany]
    have hk : k ∉ m.map Prod.fst := by
      intro hkmem
      apply hany
      obtain ⟨e, he, hek⟩ := List.mem_map.mp hkmem
      simp only [List.any_eq_true, decide_eq_true_eq]
      exact ⟨e, he, hek⟩
    simp [List.nodup_append, hnd, hk]

theorem mapGet_mapDelete_self (m : List (Context × α)) (k : Context) :
    mapGet (mapDelete m k) k = none := by
  induction m with
  | nil => rfl
  | cons e m ih =>
    obtain ⟨ek, ev⟩ := e
    by_cases h1 : ek = k
    · simpa [mapDelete, List.filter_cons, h1] using ih
    · simp only [mapDelete, List.filter_cons] at ih ⊢
      rw [if_pos (by simpa using h1)]
      simp only [mapGet]
      rw [if_neg h1]
      exact ih

theorem mapGet_mapDelete_ne (m : List (Context × α)) (k kt : Context)
    (hne : kt ≠ k) :
    mapGet (mapDelete m k) kt = mapGet m kt := by
  induction m with
  | nil => rfl
  | cons e m ih =>
    obtain ⟨ek, ev⟩ := e
    by_cases h1 : ek = k
    · rw [show mapDelete ((ek, ev) :: m) k = mapDelete m k by
        simp [mapDelete, List.filter_cons, h1]]
      rw [ih]
      simp only [mapGet]
      rw [if_neg (by rw [h1]; exact Ne.symm hne)]
    · rw [show mapDelete ((ek, ev) :: m) k = (ek, ev) :: mapDelete m k by
        simp [mapDelete, List.filter_cons, h1]]
      simp only [mapGet]
      by_cases h2 : ek = kt
      · rw [if_pos h2, if_pos h2]
      · rw [if_neg h2, if_neg h2]
        exact ih

theorem tableFind_of_get {rs : ContextResolvers α} {k : Context} {v : α}
    (h : mapGet rs.resolvers k = some v) :
    rs.findResolver k = some v := by
  cases k <;> simp [ContextResolvers.findResolver, h]

/-- C7: resolver-table round trip.  After `addResolver(k.resolvesTo f)` a
table lookup for `k` returns `f`; the table keeps at most one resolver per
key identity; and after a subsequent `removeResolver k`, lookup for `k` is
absent, provided no ancestor key of `k` had an entry. -/
theorem C7_table_round_trip {α : Type} (rs : ContextResolvers α) (k : Context)
    (f : α)
    (hnd : (rs.resolvers.map Prod.fst).Nodup)
    (hanc : ∀ kt ∈ k.chain, kt ≠ k → mapGet rs.resolvers kt = none) :
    (rs.addResolver (k.resolvesTo f)).findResolver k = some f ∧
    (∀ kt, ((rs.addResolver (k.resolvesTo f)).resolvers.map Prod.fst).count kt
      ≤ 1) ∧
    ((rs.addResolver (k.resolvesTo f)).removeResolver k).findResolver k
      = none := by
  have h1 : (rs.addResolver (k.resolvesTo f)).findResolver k = some f :=
    tableFind_of_get (by
      show mapGet (mapSet rs.resolvers k f) k = some f
      exact mapGet_mapSet_self rs.resolvers k f)
  have hnd' : ((rs.addResolver (k.resolvesTo f)).resolvers.map Prod.fst).Nodup := by
    show ((mapSet rs.resolvers k f).map Prod.fst).Nodup
    exact keys_mapSet_nodup rs.resolvers k f hnd
  have h3 : ((rs.addResolver (k.resolvesTo f)).removeResolver k).findResolver k
      = none := by
    apply tableFind_of_not_mem_chain
    intro kt hkt
    show mapGet (mapDelete (mapSet rs.resolvers k f) k) kt = none
    by_cases hkk : kt = k
    · subst hkk
      exact mapGet_mapDelete_self _ _
    · rw [mapGet_mapDelete_ne _ _ _ hkk, mapGet_mapSet_ne _ _ _ _ hkk]
      exact hanc kt hkt hkk
  exact ⟨h1, fun kt => List.nodup_iff_count_le_one.mp hnd' kt, h3⟩

theorem C7_table_round_trip_witness :
    ((⟨[]⟩ : ContextResolvers String).addResolver
      ((Context.root 0 "K").resolvesTo "v")).findResolver (.root 0 "K")
      = some "v" ∧
    (∀ kt, (((⟨[]⟩ : ContextResolvers String).addResolver
      ((Context.root 0 "K").resolvesTo "v")).resolvers.map Prod.fst).count kt
      ≤ 1) ∧
    (((⟨[]⟩ : ContextResolvers String).addResolver
      ((Context.root 0 "K").resolvesTo "v")).removeResolver
        (.root 0 "K")).findResolver (.root 0 "K") = none :=
  C7_table_round_trip ⟨[]⟩ (.root 0 "K") "v" (by simp)
    (by
      intro kt hkt hne
      simp [Context.chain] at hkt
      exact absurd hkt hne)

theorem intercalate_singleton (s : String) : String.intercalate ", " [s] = s := by
  simp [String.intercalate, String.intercalate.go]

/-- C8: the required-context check.  For an instance whose class declares
`requiredContexts = [kk]`: if `kk` does not resolve from the instance the
check throws an error carrying the class name and exactly `kk`'s name
(the joined missing-name list of the single key); if a resolver for `kk`
is found, the check returns normally. -/
theorem C8_required_context_check {α : Type} (g : Graph α) (node : Nat)
    (kk : Context) (cn : String) :
    (Context.findResolver g kk node = none →
      Context.checkRequired g ⟨node, .undef, .arr [kk], cn⟩ =
        some ("Missing required contexts for instance of class '" ++ cn
          ++ "': " ++ kk.name)) ∧
    (∀ r, Context.findResolver g kk node = some r →
      Context.checkRequired g ⟨node, .undef, .arr [kk], cn⟩ = none) := by
  constructor
  · intro h
    unfold Context.checkRequired
    simp [ReqVal.coalesce, ReqVal.asArray, h, intercalate_singleton]
  · intro r h
    unfold Context.checkRequired
    simp [ReqVal.coalesce, ReqVal.asArray, h]

theorem C8_required_context_check_witness :
    Context.checkRequired (⟨[], fun _ => ⟨.nil, none, none⟩⟩ : Graph String)
      ⟨0, .undef, .arr [.root 0 "MissingContext"], "TestClass"⟩ =
      some ("Missing required contexts for instance of class '" ++ "TestClass"
        ++ "': " ++ (Context.root 0 "MissingContext").name) ∧
    Context.checkRequired
      (⟨[9], fun _ => ⟨.nil, some (.root 1 "PresentContext"), none⟩⟩ :
        Graph String)
      ⟨9, .undef, .arr [.root 1 "PresentContext"], "TestClass"⟩ = none := by
  constructor
  · apply (C8_required_context_check _ 0 (.root 0 "MissingContext")
      "TestClass").1
    have hm : Context.matchAt (⟨[], fun _ => ⟨.nil, none, none⟩⟩ : Graph String)
        (.root 0 "MissingContext") 0 = none :=
      matchAt_eq_none (by simp) (by simp)
    unfold Context.findResolver
    rw [bfsAux_cons_notfound hm]
    show (bfsAux _ _ [] [0]).1 = none
    rw [bfsAux_eq_nil]
  · apply (C8_required_context_check _ 9 (.root 1 "PresentContext")
      "TestClass").2 (.selfR 9)
    have hm : Context.matchAt
        (⟨[9], fun _ => ⟨.nil, some (.root 1 "PresentContext"), none⟩⟩ :
          Graph String)
        (.root 1 "PresentContext") 9 = some (.selfR 9) :=
      matchAt_selfType (by simp) (chain_self _)
    unfold Context.findResolver
    rw [bfsAux_cons_found hm]

/-- C10 (implicit): `Context.checkRequired` is a no-op — it returns
normally — whenever the effective `requiredContexts` value (own property,
falling back to the constructor's under nullish coalescing) is not an
array: absent, null, or a non-array value; and the empty array also never
throws.  The model is pure, so no state is mutated. -/
theorem C10_checkRequired_noop {α : Type} (g : Graph α) (node : Nat)
    (a b : ReqVal) (cn : String)
    (h : ∀ ks, a.coalesce b ≠ ReqVal.arr ks) :
    Context.checkRequired g ⟨node, a, b, cn⟩ = none ∧
    Context.checkRequired g ⟨node, .arr [], b, cn⟩ = none := by
  constructor
  · unfold Context.checkRequired
    have hnone : (a.coalesce b).asArray = none := by
      cases hcb : a.coalesce b
      case arr ks => exact absurd hcb (h ks)
      all_goals rfl
    simp [hnone]
  · unfold Context.checkRequired
    simp [ReqVal.coalesce, ReqVal.asArray]

theorem C10_checkRequired_noop_witness :
    Context.checkRequired (⟨[], fun _ => ⟨.nil, none, none⟩⟩ : Graph String)
      ⟨0, .truthyNonArray, .arr [.root 0 "K"], "C"⟩ = none ∧
    Context.checkRequired (⟨[], fun _ => ⟨.nil, none, none⟩⟩ : Graph String)
      ⟨0, .arr [], .arr [.root 0 "K"], "C"⟩ = none :=
  C10_checkRequired_noop _ 0 .truthyNonArray (.arr [.root 0 "K"]) "C"
    (fun ks h => nomatch h)
